import Mathlib

/-!
Verification of the archive orchestration engine of the web-archiver-action
repository.  The embedding follows the JavaScript sources:

* the main loop and metadata handling follow processArtifacts,
  loadArchiveMetadata, saveArchiveMetadata and archiveWebsite from
  src/unnamed/part_001 (the variant whose records carry a description field;
  src/main.js is identical in the relevant control flow except that its
  records have no description field);
* the shell dispatcher and handlers follow src/unnamed/part_004
  (handle_artifact.sh), the handle_website.sh document of
  src/unnamed/part_005, and src/scripts/handle_subreddit.sh.

JavaScript objects are modelled as association lists in insertion order
(JS string-keyed objects preserve insertion order; assigning to an existing
key keeps its position, a new key is appended).  Dates are ambient inputs.
-/

namespace WebArchiver

/-- Persisted per-artifact record, the value type of archive/metadata.json:
fields lastArchived, archivedPath and (src/unnamed/part_001 variant) a
description.  The description is optional because records written by the
src/main.js variant omit it. -/
structure CaptureRecord where
  lastArchived : String
  archivedPath : String
  description : Option String
deriving DecidableEq, Repr

/-- Input artifact descriptor: a url (the stable identity) and an optional
description, as parsed from the artifacts JSON input. -/
structure Artifact where
  url : String
  description : Option String
deriving DecidableEq, Repr

/-- The in-memory metadata object: an association list from artifact identity
to CaptureRecord, in JS-object insertion order. -/
abbrev Metadata := List (String × CaptureRecord)

/-- Reading metadata[url] on a JS object: the record at the key, if present. -/
def getKey : Metadata → String → Option CaptureRecord
  | [], _ => none
  | (k', r) :: rest, k => if k' = k then some r else getKey rest k

/-- Writing metadata[url] = record on a JS object: an existing key keeps its
position and gets the new value, a fresh key is appended. -/
def setKey : Metadata → String → CaptureRecord → Metadata
  | [], k, r => [(k, r)]
  | (k', r') :: rest, k, r =>
      if k' = k then (k, r) :: rest else (k', r') :: setKey rest k r

/-- The characters of the string archive/ used by the path-normalizing regex. -/
def archiveSlash : List Char := ['a', 'r', 'c', 'h', 'i', 'v', 'e', '/']

/-- Suffix of a character list after the first occurrence of a pattern, if
the pattern occurs at all. -/
def afterFirstOcc (pat : List Char) : List Char → Option (List Char)
  | [] => none
  | c :: cs =>
      if pat.isPrefixOf (c :: cs) then some ((c :: cs).drop pat.length)
      else afterFirstOcc pat cs

/-- The path normalization archivedPath.replace of the regex anchored-lazy
dot-star followed by archive/ with replacement archive/ (part_001 line 103,
main.js line 84): everything up to and including the first occurrence of
archive/ is replaced by archive/; if archive/ does not occur, the string is
returned unchanged (String.replace with no match is the identity). -/
def normalizeArchivePath (s : String) : String :=
  match afterFirstOcc archiveSlash s.data with
  | some suf => String.mk (archiveSlash ++ suf)
  | none => s

/-- End of the authority component of a URL. -/
def isAuthorityEnd (c : Char) : Bool := c = '/' || c = '?' || c = '#'

/-- Hostname of a URL, modelling (new URL(u)).hostname for http(s) URLs:
the authority after the scheme separator, with userinfo and port removed. -/
def urlHostname (u : String) : String :=
  match afterFirstOcc "://".data u.data with
  | none => ""
  | some rest =>
      let auth := rest.takeWhile (fun c => !(isAuthorityEnd c))
      let hostPort :=
        match afterFirstOcc ['@'] auth with
        | some h => h
        | none => auth
      String.mk (hostPort.takeWhile (fun c => c ≠ ':'))

/-- Pathname of a URL, modelling (new URL(u)).pathname for http(s) URLs:
the part after the authority up to a query or fragment, or a bare slash. -/
def urlPathname (u : String) : String :=
  match afterFirstOcc "://".data u.data with
  | none => "/"
  | some rest =>
      let after := rest.dropWhile (fun c => !(isAuthorityEnd c))
      match after with
      | '/' :: _ => String.mk (after.takeWhile (fun c => c ≠ '?' && c ≠ '#'))
      | _ => "/"

/-- Node path.basename on a URL pathname: trailing slashes are stripped, then
the component after the last remaining slash is returned. -/
def pathBasename (p : String) : String :=
  let stripped := (p.data.reverse.dropWhile (fun c => c = '/')).reverse
  String.mk ((stripped.reverse.takeWhile (fun c => c ≠ '/')).reverse)

/-- Subreddit wiki rewriting at the top of archiveWebsite
(src/unnamed/part_001 lines 37-41): an identity beginning with r/ is
rewritten to the canonical reddit wiki index URL for that community. -/
def normalizeTarget (url : String) : String :=
  if "r/".data.isPrefixOf url.data then
    "https://www.reddit.com/" ++ url ++ "/wiki/index"
  else url

/-- Path returned by archiveWebsite on a successful wget run
(src/unnamed/part_001 lines 53-61): the archive directory followed by the
target hostname, then either the pathname itself when its basename looks
like a file (contains a dot) or index.html otherwise. -/
def successPath (url : String) : String :=
  let t := normalizeTarget url
  let host := urlHostname t
  let pathn := urlPathname t
  let fileName := pathBasename pathn
  if fileName ≠ "" && fileName.data.contains '.' then
    "archive/" ++ host ++ pathn
  else "archive/" ++ host ++ "/index.html"

/-- Default description used by processArtifacts in src/unnamed/part_001
line 86 when the artifact carries none. -/
def defaultDescription : String := "No description provided"

/-- Description the loop associates with an artifact. -/
def descOf (a : Artifact) : String := a.description.getD defaultDescription

/-- Record written on a successful fetch (src/unnamed/part_001 line 103 with
archivedPath coming from archiveWebsite and archiveDate the current date). -/
def freshRecord (today : String) (a : Artifact) : CaptureRecord :=
  { lastArchived := today
    archivedPath := normalizeArchivePath (successPath a.url)
    description := some (descOf a) }

/-- Record written on a failed fetch that falls back to a prior record
(src/unnamed/part_001 lines 92-103): date and path are taken from the prior
record, the description from the current artifact. -/
def fallbackRecord (prior : CaptureRecord) (a : Artifact) : CaptureRecord :=
  { lastArchived := prior.lastArchived
    archivedPath := normalizeArchivePath prior.archivedPath
    description := some (descOf a) }

/-- What one loop iteration of processArtifacts writes for its artifact:
on fetch success the fresh record; on failure the fallback record built from
the prior record in the metadata loaded at run start, or nothing when no
prior record exists (the continue branch, part_001 lines 97-100). -/
def stepWrite (meta : Metadata) (today : String) (ok : Bool) (a : Artifact) :
    Option CaptureRecord :=
  if ok then some (freshRecord today a)
  else
    match getKey meta a.url with
    | some prior => some (fallbackRecord prior a)
    | none => none

/-- One iteration of the processArtifacts loop acting on the accumulated
updatedMetadata object. -/
def processStep (meta : Metadata) (today : String) (ok : Bool)
    (upd : Metadata) (a : Artifact) : Metadata :=
  match stepWrite meta today ok a with
  | some r => setKey upd a.url r
  | none => upd

/-- processArtifacts from src/unnamed/part_001 lines 79-107: starting from a
copy of the loaded metadata, each artifact is processed in list order; the
Bool paired with each artifact is whether its wget fetch succeeded (the
archiveWebsite result being non-null). -/
def processArtifacts (arts : List (Artifact × Bool)) (meta : Metadata)
    (today : String) : Metadata :=
  arts.foldl (fun upd p => processStep meta today p.2 upd p.1) meta

/-- The last record written for key k over the run, later artifacts taking
precedence; none when no occurrence of k results in a success or a fallback. -/
def lastWrite (meta : Metadata) (today : String) (k : String) :
    List (Artifact × Bool) → Option CaptureRecord
  | [] => none
  | p :: rest =>
      match lastWrite meta today k rest with
      | some r => some r
      | none => if p.1.url = k then stepWrite meta today p.2 p.1 else none

theorem getKey_setKey_self (m : Metadata) (k : String) (r : CaptureRecord) :
    getKey (setKey m k r) k = some r := by
  induction m with
  | nil => simp [setKey, getKey]
  | cons hd tl ih =>
      obtain ⟨k', r'⟩ := hd
      by_cases h : k' = k
      · simp [setKey, h, getKey]
      · simp [setKey, h, getKey, ih]

theorem getKey_setKey_other (m : Metadata) (k k' : String) (r : CaptureRecord)
    (h : k ≠ k') : getKey (setKey m k r) k' = getKey m k' := by
  induction m with
  | nil => simp [setKey, getKey, h]
  | cons hd tl ih =>
      obtain ⟨k1, r1⟩ := hd
      by_cases h1 : k1 = k
      · subst h1
        simp [setKey, getKey, h]
      · by_cases h2 : k1 = k'
        · simp [setKey, h1, getKey, h2, Ne.symm h]
        · simp [setKey, h1, getKey, h2, ih]

theorem getKey_processStep (meta upd : Metadata) (today : String) (ok : Bool)
    (a : Artifact) (k : String) :
    getKey (processStep meta today ok upd a) k =
      match (if a.url = k then stepWrite meta today ok a else none) with
      | some r => some r
      | none => getKey upd k := by
  unfold processStep
  by_cases h : a.url = k
  · subst h
    cases hw : stepWrite meta today ok a with
    | none => simp [hw]
    | some r => simp [hw, getKey_setKey_self]
  · cases hw : stepWrite meta today ok a with
    | none => simp [hw, h]
    | some r => simp [hw, h, getKey_setKey_other upd a.url k r h]

/-- Master lemma: the final value at any key is the last record written for
that key during the run, or the loaded value when the run never writes it. -/
theorem getKey_processArtifacts (arts : List (Artifact × Bool))
    (meta upd : Metadata) (today : String) (k : String) :
    getKey (arts.foldl (fun u p => processStep meta today p.2 u p.1) upd) k =
      match lastWrite meta today k arts with
      | some r => some r
      | none => getKey upd k := by
  induction arts generalizing upd with
  | nil => simp [lastWrite]
  | cons hd tl ih =>
      simp only [List.foldl_cons]
      rw [ih]
      rw [getKey_processStep]
      cases hl : lastWrite meta today k tl with
      | some r => simp [lastWrite, hl]
      | none =>
          cases hw : (if hd.1.url = k then stepWrite meta today hd.2 hd.1 else none) with
          | some r => simp [lastWrite, hl, hw]
          | none => simp [lastWrite, hl, hw]

theorem getKey_processArtifacts' (arts : List (Artifact × Bool))
    (meta : Metadata) (today : String) (k : String) :
    getKey (processArtifacts arts meta today) k =
      match lastWrite meta today k arts with
      | some r => some r
      | none => getKey meta k :=
  getKey_processArtifacts arts meta meta today k

/-- Variant of lastWrite that does not test the key: the last record written
by any of the given iterations. -/
def lastWriteAll (meta : Metadata) (today : String) :
    List (Artifact × Bool) → Option CaptureRecord
  | [] => none
  | p :: rest =>
      match lastWriteAll meta today rest with
      | some r => some r
      | none => stepWrite meta today p.2 p.1

theorem lastWrite_eq_filter (meta : Metadata) (today : String) (k : String)
    (arts : List (Artifact × Bool)) :
    lastWrite meta today k arts =
      lastWriteAll meta today (arts.filter (fun p => p.1.url == k)) := by
  induction arts with
  | nil => simp [lastWrite, lastWriteAll]
  | cons p rest ih =>
      by_cases h : p.1.url = k
      · simp only [lastWrite, ih, List.filter_cons, h]
        simp [lastWriteAll]
      · simp only [lastWrite, ih, List.filter_cons]
        have hb : (p.1.url == k) = false := by
          simp [h]
        simp only [hb, if_neg h, Bool.false_eq_true, if_false]
        cases h' : lastWriteAll meta today (List.filter (fun p => p.1.url == k) rest) <;>
          simp [h']

theorem archiveSlash_data : "archive/".data = archiveSlash := by decide

theorem afterFirstOcc_self (c : Char) (cs rest : List Char) :
    afterFirstOcc (c :: cs) ((c :: cs) ++ rest) = some rest := by
  have hpre : (c :: cs).isPrefixOf ((c :: cs) ++ rest) = true :=
    List.isPrefixOf_iff_prefix.mpr (List.prefix_append _ _)
  simp only [List.cons_append] at hpre ⊢
  rw [afterFirstOcc, if_pos hpre]
  simp only [List.length_cons, List.drop_succ_cons]
  rw [List.drop_left]

theorem afterFirstOcc_archiveSlash (rest : List Char) :
    afterFirstOcc archiveSlash (archiveSlash ++ rest) = some rest :=
  afterFirstOcc_self 'a' ['r', 'c', 'h', 'i', 'v', 'e', '/'] rest

/-- The regex rewrite is the identity on any path already rooted at the
archive directory. -/
theorem normalizeArchivePath_archive (t : String) :
    normalizeArchivePath ("archive/" ++ t) = "archive/" ++ t := by
  unfold normalizeArchivePath
  have hd : ("archive/" ++ t).data = archiveSlash ++ t.data := by
    rw [String.data_append, archiveSlash_data]
  rw [hd, afterFirstOcc_archiveSlash]
  apply String.ext
  simp [hd]

theorem successPath_under_root (url : String) :
    ∃ t : String, successPath url = "archive/" ++ t := by
  unfold successPath
  by_cases h :
      (pathBasename (urlPathname (normalizeTarget url)) ≠ "" &&
        (pathBasename (urlPathname (normalizeTarget url))).data.contains '.') = true
  · exact ⟨urlHostname (normalizeTarget url) ++ urlPathname (normalizeTarget url),
      by rw [if_pos h, String.append_assoc]⟩
  · exact ⟨urlHostname (normalizeTarget url) ++ "/index.html",
      by rw [if_neg h, String.append_assoc]⟩

theorem freshRecord_path_under_root (today : String) (a : Artifact) :
    ∃ t : String, (freshRecord today a).archivedPath = "archive/" ++ t := by
  obtain ⟨t, ht⟩ := successPath_under_root a.url
  exact ⟨t, by simp [freshRecord, ht, normalizeArchivePath_archive]⟩

theorem mem_of_filter_singleton {arts : List (Artifact × Bool)} {k : String}
    {p : Artifact × Bool}
    (h : arts.filter (fun q => q.1.url == k) = [p]) : p.1.url = k := by
  have hm : p ∈ arts.filter (fun q => q.1.url == k) := by
    rw [h]; exact List.mem_singleton_self p
  have := List.of_mem_filter hm
  exact eq_of_beq this

/-- C1: the claim is false on the code: when the fetch of an artifact with a
prior record fails, processArtifacts (src/unnamed/part_001 lines 92-103)
rewrites the entry, keeping the prior date and path but replacing the
description field with the current artifact's description, so the post-run
record is not byte-identical to the pre-run record.  Concrete input: prior
record with description "old site text", current artifact description
"new site text", fetch failed. -/
theorem fallback_rewrites_description_counterexample :
    getKey (processArtifacts
        [({ url := "https://x.example", description := some "new site text" }, false)]
        [("https://x.example",
          { lastArchived := "2024-01-01",
            archivedPath := "archive/x.example/index.html",
            description := some "old site text" })]
        "2025-06-01")
      "https://x.example" ≠
    some { lastArchived := "2024-01-01",
           archivedPath := "archive/x.example/index.html",
           description := some "old site text" } := by
  decide

/-- C1 (amended): for an artifact with a prior record whose fetch fails, the
post-run record preserves the prior lastArchived and archivedPath fields
byte-identically (the stored path being rooted at the archive directory, the
re-normalization is the identity), but its description field is replaced by
the current run's artifact description. -/
theorem fallback_preserves_date_and_path (arts : List (Artifact × Bool))
    (meta : Metadata) (today k : String) (a : Artifact) (prior : CaptureRecord)
    (t : String)
    (h1 : getKey meta k = some prior)
    (h2 : arts.filter (fun p => p.1.url == k) = [(a, false)])
    (h3 : prior.archivedPath = "archive/" ++ t) :
    getKey (processArtifacts arts meta today) k =
      some { lastArchived := prior.lastArchived
             archivedPath := prior.archivedPath
             description := some (descOf a) } := by
  have hurl : a.url = k := mem_of_filter_singleton h2
  rw [getKey_processArtifacts', lastWrite_eq_filter, h2]
  simp only [lastWriteAll, stepWrite, if_neg (Bool.false_ne_true), hurl, h1]
  simp [fallbackRecord, h3, normalizeArchivePath_archive]

/-- Witness for the amended C1 at a concrete input. -/
theorem fallback_preserves_date_and_path_witness :
    getKey (processArtifacts
        [({ url := "https://w.example", description := some "fresh words" }, false)]
        [("https://w.example",
          { lastArchived := "2023-05-05",
            archivedPath := "archive/w.example/index.html",
            description := some "stale words" })]
        "2025-06-01")
      "https://w.example" =
    some { lastArchived := "2023-05-05",
           archivedPath := "archive/w.example/index.html",
           description := some "fresh words" } := by
  have := fallback_preserves_date_and_path
    [({ url := "https://w.example", description := some "fresh words" }, false)]
    [("https://w.example",
      { lastArchived := "2023-05-05",
        archivedPath := "archive/w.example/index.html",
        description := some "stale words" })]
    "2025-06-01" "https://w.example"
    { url := "https://w.example", description := some "fresh words" }
    { lastArchived := "2023-05-05",
      archivedPath := "archive/w.example/index.html",
      description := some "stale words" }
    "w.example/index.html" (by decide) (by decide) (by decide)
  simpa [descOf] using this

/-- C2: for an artifact whose fetch succeeds (appearing once in the run), the
post-run entry for its identity is exactly the fresh record, replacing any
prior record: its lastArchived equals the run's current date and its
archivedPath is store-relative under the archive root
(src/main.js lines 33-46 and 70-84; src/unnamed/part_001 lines 89-103). -/
theorem success_updates_record (arts : List (Artifact × Bool))
    (meta : Metadata) (today : String) (a : Artifact)
    (h : arts.filter (fun p => p.1.url == a.url) = [(a, true)]) :
    getKey (processArtifacts arts meta today) a.url = some (freshRecord today a)
    ∧ (freshRecord today a).lastArchived = today
    ∧ ∃ t : String, (freshRecord today a).archivedPath = "archive/" ++ t := by
  refine ⟨?_, rfl, freshRecord_path_under_root today a⟩
  rw [getKey_processArtifacts', lastWrite_eq_filter, h]
  simp [lastWriteAll, stepWrite]

/-- Witness for C2 at a concrete input. -/
theorem success_updates_record_witness :
    getKey (processArtifacts
        [({ url := "https://example.org", description := some "home" }, true)]
        [("https://example.org",
          { lastArchived := "2024-01-01",
            archivedPath := "archive/example.org/index.html",
            description := some "home" })]
        "2025-06-01")
      "https://example.org" =
      some (freshRecord "2025-06-01"
        { url := "https://example.org", description := some "home" })
    ∧ (freshRecord "2025-06-01"
        { url := "https://example.org", description := some "home" }).lastArchived =
        "2025-06-01"
    ∧ ∃ t : String,
        (freshRecord "2025-06-01"
          { url := "https://example.org", description := some "home" }).archivedPath =
          "archive/" ++ t :=
  success_updates_record
    [({ url := "https://example.org", description := some "home" }, true)]
    [("https://example.org",
      { lastArchived := "2024-01-01",
        archivedPath := "archive/example.org/index.html",
        description := some "home" })]
    "2025-06-01"
    { url := "https://example.org", description := some "home" }
    (by decide)

/-- C3: an artifact with no prior record whose fetch fails produces no entry:
the key is absent after the run exactly as before (the continue branch,
src/main.js lines 78-81, src/unnamed/part_001 lines 97-100). -/
theorem absent_stays_absent (arts : List (Artifact × Bool)) (meta : Metadata)
    (today k : String)
    (h1 : getKey meta k = none)
    (h2 : ∀ p ∈ arts, p.1.url = k → p.2 = false) :
    getKey (processArtifacts arts meta today) k = none := by
  rw [getKey_processArtifacts']
  have hlw : lastWrite meta today k arts = none := by
    induction arts with
    | nil => rfl
    | cons p rest ih =>
        have hrest : lastWrite meta today k rest = none :=
          ih (fun q hq => h2 q (List.mem_cons_of_mem p hq))
        simp only [lastWrite, hrest]
        by_cases hu : p.1.url = k
        · have hf : p.2 = false := h2 p (List.mem_cons_self p rest) hu
          simp [hu, hf, stepWrite, h1]
        · simp [hu]
  simp [hlw, h1]

/-- Witness for C3 at a concrete input. -/
theorem absent_stays_absent_witness :
    getKey (processArtifacts
        [({ url := "https://dead.example", description := none }, false)]
        [("https://other.example",
          { lastArchived := "2024-02-02",
            archivedPath := "archive/other.example/index.html",
            description := none })]
        "2025-06-01")
      "https://dead.example" = none :=
  absent_stays_absent
    [({ url := "https://dead.example", description := none }, false)]
    [("https://other.example",
      { lastArchived := "2024-02-02",
        archivedPath := "archive/other.example/index.html",
        description := none })]
    "2025-06-01" "https://dead.example" (by decide)
    (by intro p hp _; simp at hp; simp [hp])

/-- C9: frame property: a key that matches no artifact url in the input list
is carried through the run unchanged (src/unnamed/part_001 lines 79-107:
the loop only assigns updatedMetadata at the urls it iterates over). -/
theorem untouched_keys_preserved (arts : List (Artifact × Bool))
    (meta : Metadata) (today k : String)
    (h : ∀ p ∈ arts, p.1.url ≠ k) :
    getKey (processArtifacts arts meta today) k = getKey meta k := by
  rw [getKey_processArtifacts']
  have hlw : lastWrite meta today k arts = none := by
    induction arts with
    | nil => rfl
    | cons p rest ih =>
        have hrest : lastWrite meta today k rest = none :=
          ih (fun q hq => h q (List.mem_cons_of_mem p hq))
        simp [lastWrite, hrest, h p (List.mem_cons_self p rest)]
  simp [hlw]

/-- Witness for C9 at a concrete input. -/
theorem untouched_keys_preserved_witness :
    getKey (processArtifacts
        [({ url := "https://new.example", description := none }, true)]
        [("https://removed.example",
          { lastArchived := "2022-12-12",
            archivedPath := "archive/removed.example/index.html",
            description := some "kept" })]
        "2025-06-01")
      "https://removed.example" =
    getKey
      [("https://removed.example",
        { lastArchived := "2022-12-12",
          archivedPath := "archive/removed.example/index.html",
          description := some "kept" })]
      "https://removed.example" :=
  untouched_keys_preserved
    [({ url := "https://new.example", description := none }, true)]
    [("https://removed.example",
      { lastArchived := "2022-12-12",
        archivedPath := "archive/removed.example/index.html",
        description := some "kept" })]
    "2025-06-01" "https://removed.example"
    (by intro p hp; simp at hp; simp [hp])

theorem keys_setKey (m : Metadata) (k : String) (r : CaptureRecord) :
    (setKey m k r).map Prod.fst =
      if k ∈ m.map Prod.fst then m.map Prod.fst else m.map Prod.fst ++ [k] := by
  induction m with
  | nil => simp [setKey]
  | cons hd tl ih =>
      obtain ⟨k1, r1⟩ := hd
      by_cases h : k1 = k
      · subst h
        simp [setKey]
      · simp only [setKey, if_neg h, List.map_cons, ih]
        by_cases hm : k ∈ tl.map Prod.fst
        · simp [hm, Ne.symm h]
        · simp [hm, Ne.symm h]

theorem nodup_keys_setKey (m : Metadata) (k : String) (r : CaptureRecord)
    (h : (m.map Prod.fst).Nodup) : ((setKey m k r).map Prod.fst).Nodup := by
  rw [keys_setKey]
  by_cases hm : k ∈ m.map Prod.fst
  · simpa [hm] using h
  · simp only [if_neg hm]
    exact List.Nodup.append h (List.nodup_singleton k)
      (by simpa [List.disjoint_singleton] using hm)

theorem nodup_keys_foldl (arts : List (Artifact × Bool))
    (meta upd : Metadata) (today : String)
    (h : (upd.map Prod.fst).Nodup) :
    ((arts.foldl (fun u p => processStep meta today p.2 u p.1) upd).map
      Prod.fst).Nodup := by
  induction arts generalizing upd with
  | nil => simpa using h
  | cons p rest ih =>
      simp only [List.foldl_cons]
      apply ih
      unfold processStep
      cases hw : stepWrite meta today p.2 p.1 with
      | none => simpa [hw] using h
      | some r => simpa [hw] using nodup_keys_setKey upd p.1.url r h

theorem nodup_keys_processArtifacts (arts : List (Artifact × Bool))
    (meta : Metadata) (today : String)
    (h : (meta.map Prod.fst).Nodup) :
    ((processArtifacts arts meta today).map Prod.fst).Nodup :=
  nodup_keys_foldl arts meta meta today h

theorem countP_key_eq_one (m : Metadata) (k : String) (r : CaptureRecord)
    (hnd : (m.map Prod.fst).Nodup) (hr : getKey m k = some r) :
    m.countP (fun e => e.1 == k) = 1 := by
  induction m with
  | nil => simp [getKey] at hr
  | cons hd tl ih =>
      obtain ⟨k1, r1⟩ := hd
      simp only [List.map_cons, List.nodup_cons] at hnd
      by_cases h : k1 = k
      · subst h
        have hz : tl.countP (fun e => e.1 == k1) = 0 := by
          rw [List.countP_eq_zero]
          intro e he
          have : e.1 ∈ tl.map Prod.fst := List.mem_map_of_mem Prod.fst he
          simp only [beq_iff_eq]
          intro hek
          exact hnd.1 (hek ▸ this)
        simp [List.countP_cons, hz]
      · simp only [getKey, if_neg h] at hr
        have := ih hnd.2 hr
        simp [List.countP_cons, h, this]

/-- C10: duplicate identities in the input list.  The occurrences are
processed in list order against the same store (the model itself, part_001
lines 84-104), the final store still has exactly one entry for the repeated
identity, and that entry is the record written by the last occurrence that
resulted in a success or a fallback (lastWrite picks exactly the last
occurrence whose stepWrite produced a record). -/
theorem duplicate_identities_last_write_wins (arts : List (Artifact × Bool))
    (meta : Metadata) (today k : String) (r : CaptureRecord)
    (hnd : (meta.map Prod.fst).Nodup)
    (hdup : 2 ≤ (arts.map (fun p => p.1.url)).count k)
    (hw : lastWrite meta today k arts = some r) :
    ((processArtifacts arts meta today).map Prod.fst).Nodup
    ∧ (processArtifacts arts meta today).countP (fun e => e.1 == k) = 1
    ∧ getKey (processArtifacts arts meta today) k = some r := by
  have hnd' := nodup_keys_processArtifacts arts meta today hnd
  have hget : getKey (processArtifacts arts meta today) k = some r := by
    rw [getKey_processArtifacts', hw]
  exact ⟨hnd', countP_key_eq_one _ k r hnd' hget, hget⟩

/-- Witness for C10: the same url appears twice, the first occurrence
succeeds and the second falls back to the record loaded at run start, so the
final single entry is the fallback record written by the second occurrence. -/
theorem duplicate_identities_last_write_wins_witness :
    ((processArtifacts
        [({ url := "https://dup.example", description := some "one" }, true),
         ({ url := "https://dup.example", description := some "two" }, false)]
        [("https://dup.example",
          { lastArchived := "2024-03-03",
            archivedPath := "archive/dup.example/index.html",
            description := some "orig" })]
        "2025-06-01").map Prod.fst).Nodup
    ∧ (processArtifacts
        [({ url := "https://dup.example", description := some "one" }, true),
         ({ url := "https://dup.example", description := some "two" }, false)]
        [("https://dup.example",
          { lastArchived := "2024-03-03",
            archivedPath := "archive/dup.example/index.html",
            description := some "orig" })]
        "2025-06-01").countP (fun e => e.1 == "https://dup.example") = 1
    ∧ getKey (processArtifacts
        [({ url := "https://dup.example", description := some "one" }, true),
         ({ url := "https://dup.example", description := some "two" }, false)]
        [("https://dup.example",
          { lastArchived := "2024-03-03",
            archivedPath := "archive/dup.example/index.html",
            description := some "orig" })]
        "2025-06-01")
        "https://dup.example" =
      some { lastArchived := "2024-03-03",
             archivedPath := "archive/dup.example/index.html",
             description := some "two" } :=
  duplicate_identities_last_write_wins
    [({ url := "https://dup.example", description := some "one" }, true),
     ({ url := "https://dup.example", description := some "two" }, false)]
    [("https://dup.example",
      { lastArchived := "2024-03-03",
        archivedPath := "archive/dup.example/index.html",
        description := some "orig" })]
    "2025-06-01" "https://dup.example"
    { lastArchived := "2024-03-03",
      archivedPath := "archive/dup.example/index.html",
      description := some "two" }
    (by decide) (by decide) (by decide)

/-- Result of the underlying wget invocation for one artifact: normal
completion, or a raised error (non-zero exit of execSync). -/
abbrev WgetResult := Except String Unit

/-- The try/catch inside archiveWebsite (src/unnamed/part_001 lines 36-65):
a raised transfer error is caught, logged as a warning and turned into a
null result; the exception never escapes the function. -/
def archiveWebsiteTry (url : String) (w : WgetResult) :
    Except String (Option String) :=
  match w with
  | Except.ok _ => Except.ok (some (successPath url))
  | Except.error _ => Except.ok none

/-- Whether the wget invocation succeeded. -/
def wgetOk : WgetResult → Bool
  | Except.ok _ => true
  | Except.error _ => false

/-- One loop iteration of processArtifacts with explicit exception flow: an
exception the iteration does not catch propagates out of the loop and
reaches the run-level catch, which sets a failed exit status. -/
def processStepE (meta : Metadata) (today : String) (upd : Metadata)
    (p : Artifact × WgetResult) : Except String Metadata :=
  match archiveWebsiteTry p.1.url p.2 with
  | Except.error e => Except.error e
  | Except.ok ap =>
      match ap with
      | some path =>
          Except.ok (setKey upd p.1.url
            { lastArchived := today
              archivedPath := normalizeArchivePath path
              description := some (descOf p.1) })
      | none =>
          match getKey meta p.1.url with
          | some prior => Except.ok (setKey upd p.1.url (fallbackRecord prior p.1))
          | none => Except.ok upd

/-- The processArtifacts loop with explicit exception flow: an error from
any iteration aborts the remainder of the loop. -/
def processLoopE (meta : Metadata) (today : String) :
    List (Artifact × WgetResult) → Metadata → Except String Metadata
  | [], upd => Except.ok upd
  | p :: rest, upd =>
      match processStepE meta today upd p with
      | Except.error e => Except.error e
      | Except.ok upd2 => processLoopE meta today rest upd2

/-- processArtifacts in the exception model, each artifact paired with the
result of its wget invocation. -/
def processArtifactsE (arts : List (Artifact × WgetResult)) (meta : Metadata)
    (today : String) : Except String Metadata :=
  processLoopE meta today arts meta

/-- Transient per-artifact result consumed by logging and reporting. -/
inductive CaptureOutcome where
  | captured (r : CaptureRecord)
  | fallbackUsed (r : CaptureRecord)
  | skipped
deriving DecidableEq, Repr

/-- Outcome of a single artifact: capture on success; on failure, a warning
plus either fallback to the prior record or a skip (part_001 lines 92-103). -/
def artifactOutcome (meta : Metadata) (today : String) (a : Artifact)
    (ok : Bool) : CaptureOutcome :=
  if ok then CaptureOutcome.captured (freshRecord today a)
  else
    match getKey meta a.url with
    | some prior => CaptureOutcome.fallbackUsed (fallbackRecord prior a)
    | none => CaptureOutcome.skipped

theorem processStepE_ok (meta : Metadata) (today : String) (upd : Metadata)
    (p : Artifact × WgetResult) :
    processStepE meta today upd p =
      Except.ok (processStep meta today (wgetOk p.2) upd p.1) := by
  obtain ⟨a, w⟩ := p
  cases w with
  | ok u => rfl
  | error e =>
      simp only [processStepE, archiveWebsiteTry, wgetOk, processStep,
        stepWrite, Bool.false_eq_true, if_false]
      cases hg : getKey meta a.url <;> simp [hg]

/-- C8: a failure of the per-artifact fetch attempt is handled locally: the
loop in the exception monad never propagates a transfer error (so the run is
not terminated and the process exit status is unchanged), it computes
exactly the pure result, and every failed artifact is surfaced only as a
fallback or a skip, never as a capture (src/main.js lines 33-46 and 59-94,
src/unnamed/part_001 lines 36-65 and 79-107). -/
theorem fetch_failures_are_local (arts : List (Artifact × WgetResult))
    (meta : Metadata) (today : String) :
    processArtifactsE arts meta today =
      Except.ok (processArtifacts (arts.map (fun p => (p.1, wgetOk p.2))) meta today)
    ∧ ∀ p ∈ arts, wgetOk p.2 = false →
        artifactOutcome meta today p.1 false = CaptureOutcome.skipped ∨
        ∃ r, artifactOutcome meta today p.1 false =
          CaptureOutcome.fallbackUsed r := by
  constructor
  · unfold processArtifactsE processArtifacts
    have key : ∀ (l : List (Artifact × WgetResult)) (upd : Metadata),
        processLoopE meta today l upd =
          Except.ok ((l.map (fun p => (p.1, wgetOk p.2))).foldl
            (fun u p => processStep meta today p.2 u p.1) upd) := by
      intro l
      induction l with
      | nil => intro upd; rfl
      | cons p rest ih =>
          intro upd
          simp only [processLoopE, processStepE_ok, List.map_cons,
            List.foldl_cons]
          exact ih _
    exact key arts meta
  · intro p _ _
    unfold artifactOutcome
    cases hg : getKey meta p.1.url with
    | none => left; simp [hg]
    | some prior => right; exact ⟨fallbackRecord prior p.1, by simp [hg]⟩

/-- Witness for C8 at a concrete input containing a raised transfer error. -/
theorem fetch_failures_are_local_witness :
    processArtifactsE
        [({ url := "https://a.example", description := none },
          Except.error "wget exited with code 8"),
         ({ url := "https://b.example", description := none },
          Except.ok ())]
        [("https://a.example",
          { lastArchived := "2024-04-04",
            archivedPath := "archive/a.example/index.html",
            description := none })]
        "2025-06-01" =
      Except.ok (processArtifacts
        [({ url := "https://a.example", description := none }, false),
         ({ url := "https://b.example", description := none }, true)]
        [("https://a.example",
          { lastArchived := "2024-04-04",
            archivedPath := "archive/a.example/index.html",
            description := none })]
        "2025-06-01") :=
  (fetch_failures_are_local
    [({ url := "https://a.example", description := none },
      Except.error "wget exited with code 8"),
     ({ url := "https://b.example", description := none }, Except.ok ())]
    [("https://a.example",
      { lastArchived := "2024-04-04",
        archivedPath := "archive/a.example/index.html",
        description := none })]
    "2025-06-01").1

/-- Classification made by handle_artifact.sh (src/unnamed/part_004): the
identity is tested against the anchored http(s) URL pattern, then against
the anchored r/ community-reference pattern, else it is unrecognized. -/
inductive ArtifactClass where
  | website
  | subreddit
  | unrecognized
deriving DecidableEq, Repr

/-- The dispatcher of handle_artifact.sh. -/
def classifyArtifact (a : String) : ArtifactClass :=
  if "http://".data.isPrefixOf a.data || "https://".data.isPrefixOf a.data then
    ArtifactClass.website
  else if "r/".data.isPrefixOf a.data then ArtifactClass.subreddit
  else ArtifactClass.unrecognized

/-- Fetch strategy, identified by the transfer tool the handler invokes:
wget mirror options in handle_website.sh versus one curl document fetch in
handle_subreddit.sh. -/
inductive Strategy where
  | fullSiteMirror
  | singleDocument
deriving DecidableEq, Repr

/-- cut -d/ -f2: the second slash-separated field; like cut, a line without
the delimiter is passed through whole. -/
def cutField2 (a : String) : String :=
  match a.splitOn "/" with
  | [single] => single
  | parts => (parts.drop 1).headD ""

/-- An apostrophe, used inside generated HTML snippets. -/
def sq : String := String.mk [Char.ofNat 39]

/-- What handle_subreddit.sh (src/scripts/handle_subreddit.sh) computes for a
community reference: the subreddit name from the second field, the canonical
wiki index URL, the output file keyed by the subreddit name, and a single
curl document fetch. -/
def handle_subreddit (artifact : String) : String × String × Strategy :=
  let sub := cutField2 artifact
  ("https://www.reddit.com/r/" ++ sub ++ "/wiki/index",
   "archive/" ++ sub ++ "_wiki.html",
   Strategy.singleDocument)

/-- C4: an identity matching the community-reference pattern is dispatched
to the subreddit handler, rewritten to the community's canonical wiki index
URL (both in handle_subreddit.sh and in the archiveWebsite rewrite of
src/unnamed/part_001 lines 37-41), fetched with the single-document strategy
rather than the full-site mirror, and stored at a path keyed by the
community name rather than by the host. -/
theorem community_reference_single_document (a : String)
    (h : "r/".data.isPrefixOf a.data = true) :
    classifyArtifact a = ArtifactClass.subreddit
    ∧ (handle_subreddit a).1 =
        "https://www.reddit.com/r/" ++ cutField2 a ++ "/wiki/index"
    ∧ (handle_subreddit a).2.2 = Strategy.singleDocument
    ∧ (handle_subreddit a).2.2 ≠ Strategy.fullSiteMirror
    ∧ (handle_subreddit a).2.1 = "archive/" ++ cutField2 a ++ "_wiki.html"
    ∧ normalizeTarget a = "https://www.reddit.com/" ++ a ++ "/wiki/index" := by
  obtain ⟨t, ht⟩ := List.isPrefixOf_iff_prefix.mp h
  have h7 : ("http://".data.isPrefixOf a.data ||
      "https://".data.isPrefixOf a.data) = false := by
    rw [← ht]; rfl
  refine ⟨?_, rfl, rfl, by simp [handle_subreddit], rfl, ?_⟩
  · simp [classifyArtifact, h7, h]
  · simp [normalizeTarget, h]

/-- Witness for C4 at the concrete community reference of Scenario D. -/
theorem community_reference_single_document_witness :
    classifyArtifact "r/example" = ArtifactClass.subreddit
    ∧ (handle_subreddit "r/example").1 =
        "https://www.reddit.com/r/" ++ cutField2 "r/example" ++ "/wiki/index"
    ∧ (handle_subreddit "r/example").2.2 = Strategy.singleDocument
    ∧ (handle_subreddit "r/example").2.2 ≠ Strategy.fullSiteMirror
    ∧ (handle_subreddit "r/example").2.1 =
        "archive/" ++ cutField2 "r/example" ++ "_wiki.html"
    ∧ normalizeTarget "r/example" =
        "https://www.reddit.com/" ++ "r/example" ++ "/wiki/index" :=
  community_reference_single_document "r/example" (by decide)

/-- awk -F/ field 3 of the URL, the domain; an absent field is empty. -/
def awkField3 (s : String) : String := ((s.splitOn "/").drop 2).headD ""

/-- The observable behaviour of one handle_website.sh run (the first document
of src/unnamed/part_005): whether the download was attempted, the script's
exit code, the target directory and the generated snippets. -/
structure WebsiteResult where
  downloaded : Bool
  exitCode : Nat
  targetDir : String
  readmeSnippet : String
  indexSnippet : String
deriving DecidableEq, Repr

/-- handle_website.sh given the numeric curl status of its existence check
(src/unnamed/part_005 lines 10-33): a 404 status emits the skip snippets and
exits 0 without downloading; every other status (2xx, 3xx, 5xx, or 000 for a
connection failure) proceeds to the wget download, whose own failures are
discarded, and exits 0. -/
def handle_website (artifact : String) (status : Nat) : WebsiteResult :=
  let domain := awkField3 artifact
  let targetDir := "archive/" ++ domain
  if status = 404 then
    { downloaded := false
      exitCode := 0
      targetDir := targetDir
      readmeSnippet := " - **" ++ artifact ++ "**: Returned 404 and was skipped.\n"
      indexSnippet := "<li>" ++ artifact ++ " (404 Not Found)</li>\n" }
  else
    { downloaded := true
      exitCode := 0
      targetDir := targetDir
      readmeSnippet := " - **" ++ artifact ++ "** archived in `" ++ targetDir ++ "`\n"
      indexSnippet := "<li><a href=" ++ sq ++ targetDir ++ "/index.html" ++ sq ++
        ">" ++ artifact ++ "</a></li>\n" }

/-- C5: the claim is false on the code: the existence check of
handle_website.sh does not give 5xx statuses (or connection failures) a
distinct hard-failure outcome; a 503 is treated exactly like a 200, both
proceeding to the download.  Concrete input: the same artifact probed with
statuses 503 and 200. -/
theorem probe_no_hard_failure_counterexample :
    handle_website "https://h.example/x" 503 =
      handle_website "https://h.example/x" 200
    ∧ (handle_website "https://h.example/x" 503).downloaded = true := by
  constructor <;> rfl

/-- C5 (amended): the existence check classifies responses into exactly two
outcomes: status 404 skips the artifact, and every other status - 2xx, 3xx,
5xx, or a connection failure reported as 000 - proceeds to the download; in
both cases the script exits 0. -/
theorem probe_two_way_classification (artifact : String) (status : Nat) :
    ((handle_website artifact status).downloaded = false ↔ status = 404)
    ∧ (handle_website artifact status).exitCode = 0 := by
  by_cases h : status = 404 <;> simp [handle_website, h]

/-! Serialization of the metadata store.  saveArchiveMetadata writes
JSON.stringify(metadata, null, 2) (src/main.js line 27, src/unnamed/part_001
line 27); loadArchiveMetadata reads the file back with JSON.parse inside a
try/catch (src/main.js lines 12-21).  The printer below follows the
JSON.stringify output format for a string-keyed object of records
(two-space indentation, JS string escaping); the parser is a recursive
descent reader of that object shape, strict about the record schema the
consuming code assumes but flexible about whitespace, returning none on any
input it cannot read (the model of a JSON.parse exception). -/

/-- Double quote. -/
def qc : Char := Char.ofNat 34

/-- Backslash. -/
def bs : Char := Char.ofNat 92

/-- Newline. -/
def nl : Char := Char.ofNat 10

/-- Opening curly brace. -/
def lbrace : Char := Char.ofNat 123

/-- Closing curly brace. -/
def rbrace : Char := Char.ofNat 125

/-- Lowercase hexadecimal digit, as JSON.stringify emits in escapes. -/
def hexDigitChar (n : Nat) : Char :=
  if n < 10 then Char.ofNat (48 + n) else Char.ofNat (87 + n)

/-- JSON.stringify escaping of one character of a string value. -/
def escapeChar (c : Char) : List Char :=
  if c = qc then [bs, qc]
  else if c = bs then [bs, bs]
  else if c = Char.ofNat 8 then [bs, 'b']
  else if c = Char.ofNat 12 then [bs, 'f']
  else if c = nl then [bs, 'n']
  else if c = Char.ofNat 13 then [bs, 'r']
  else if c = Char.ofNat 9 then [bs, 't']
  else if c.toNat < 32 then
    [bs, 'u', '0', '0', hexDigitChar (c.toNat / 16), hexDigitChar (c.toNat % 16)]
  else [c]

/-- JSON.stringify escaping of a character sequence. -/
def escList (l : List Char) : List Char := l.flatMap escapeChar

/-- A JSON string literal: escaped content between double quotes. -/
def quoteStr (s : String) : List Char := qc :: (escList s.data ++ [qc])

/-- Two-space indentation of the top-level entries. -/
def ind2 : List Char := [' ', ' ']

/-- Four-space indentation of the record fields. -/
def ind4 : List Char := [' ', ' ', ' ', ' ']

/-- One record field line as JSON.stringify prints it. -/
def fieldChars (name v : String) : List Char :=
  ind4 ++ quoteStr name ++ ':' :: ' ' :: quoteStr v

/-- One CaptureRecord as JSON.stringify prints it at nesting depth one; the
description line is present exactly when the record has a description. -/
def recordChars (r : CaptureRecord) : List Char :=
  lbrace :: nl :: (fieldChars "lastArchived" r.lastArchived ++
    ',' :: nl :: (fieldChars "archivedPath" r.archivedPath ++
      (match r.description with
       | some d =>
           ',' :: nl :: (fieldChars "description" d ++
             nl :: (ind2 ++ [rbrace]))
       | none => nl :: (ind2 ++ [rbrace]))))

/-- One top-level key/record entry as JSON.stringify prints it. -/
def entryChars (e : String × CaptureRecord) : List Char :=
  ind2 ++ quoteStr e.1 ++ ':' :: ' ' :: recordChars e.2

/-- The comma-and-newline separated entry list. -/
def entriesChars : Metadata → List Char
  | [] => []
  | e :: rest =>
      match rest with
      | [] => entryChars e
      | _ :: _ => entryChars e ++ ',' :: nl :: entriesChars rest

/-- The whole serialized object as JSON.stringify(metadata, null, 2) prints
it: a bare brace pair for the empty store, otherwise entries framed by
braces on their own lines. -/
def metadataChars : Metadata → List Char
  | [] => [lbrace, rbrace]
  | e :: rest => lbrace :: nl :: (entriesChars (e :: rest) ++ nl :: [rbrace])

/-- saveArchiveMetadata: the file content the run persists, the
JSON.stringify serialization of the store. -/
def saveArchiveMetadata (m : Metadata) : String := String.mk (metadataChars m)

/-- Whitespace as JSON.parse skips it. -/
def isWsChar (c : Char) : Bool :=
  c = ' ' || c = nl || c = Char.ofNat 9 || c = Char.ofNat 13

/-- Skip leading whitespace. -/
def skipWs (cs : List Char) : List Char := cs.dropWhile isWsChar

/-- Value of one hexadecimal digit. -/
def hexVal (c : Char) : Option Nat :=
  if 48 ≤ c.toNat && c.toNat ≤ 57 then some (c.toNat - 48)
  else if 97 ≤ c.toNat && c.toNat ≤ 102 then some (c.toNat - 87)
  else if 65 ≤ c.toNat && c.toNat ≤ 70 then some (c.toNat - 55)
  else none

/-- Prepend a character to the string being accumulated by the string
reader. -/
def consFst (c : Char) :
    Option (List Char × List Char) → Option (List Char × List Char)
  | some (s, r) => some (c :: s, r)
  | none => none

/-- Body of a JSON string literal after its opening quote: content up to the
closing quote with JSON escapes decoded; raw control characters are
rejected, as JSON.parse rejects them.  The fuel argument bounds the number
of decoded characters and is in practice the input length. -/
def parseStrLoop : Nat → List Char → Option (List Char × List Char)
  | 0, _ => none
  | fuel + 1, cs =>
      match cs with
      | [] => none
      | c :: rest =>
          if c = qc then some ([], rest)
          else if c = bs then
            match rest with
            | [] => none
            | e :: rest2 =>
                if e = qc then consFst qc (parseStrLoop fuel rest2)
                else if e = bs then consFst bs (parseStrLoop fuel rest2)
                else if e = '/' then consFst '/' (parseStrLoop fuel rest2)
                else if e = 'b' then consFst (Char.ofNat 8) (parseStrLoop fuel rest2)
                else if e = 'f' then consFst (Char.ofNat 12) (parseStrLoop fuel rest2)
                else if e = 'n' then consFst nl (parseStrLoop fuel rest2)
                else if e = 'r' then consFst (Char.ofNat 13) (parseStrLoop fuel rest2)
                else if e = 't' then consFst (Char.ofNat 9) (parseStrLoop fuel rest2)
                else if e = 'u' then
                  match rest2 with
                  | h1 :: h2 :: h3 :: h4 :: rest3 =>
                      match hexVal h1, hexVal h2, hexVal h3, hexVal h4 with
                      | some a, some b, some c2, some d =>
                          consFst (Char.ofNat (((a * 16 + b) * 16 + c2) * 16 + d))
                            (parseStrLoop fuel rest3)
                      | _, _, _, _ => none
                  | _ => none
                else none
          else if c.toNat < 32 then none
          else consFst c (parseStrLoop fuel rest)

/-- Read the body of a string literal, with enough fuel for the input. -/
def parseStrBody (cs : List Char) : Option (List Char × List Char) :=
  parseStrLoop cs.length cs

/-- Read a complete JSON string literal. -/
def parseQuotedString (cs : List Char) : Option (String × List Char) :=
  match cs with
  | [] => none
  | c :: rest =>
      if c = qc then
        match parseStrBody rest with
        | none => none
        | some (body, r) => some (String.mk body, r)
      else none

/-- Expect one specific character next. -/
def expectChar (c : Char) : List Char → Option (List Char)
  | [] => none
  | x :: r => if x = c then some r else none

/-- Read one field whose key must be the given name, with a string value. -/
def parseFieldNamed (name : String) (cs : List Char) :
    Option (String × List Char) :=
  match parseQuotedString (skipWs cs) with
  | none => none
  | some (k, cs1) =>
      if k = name then
        match expectChar ':' (skipWs cs1) with
        | none => none
        | some cs2 => parseQuotedString (skipWs cs2)
      else none

/-- Read one CaptureRecord object: lastArchived and archivedPath fields,
then either a closing brace or a description field and the closing brace. -/
def parseRecord (cs : List Char) : Option (CaptureRecord × List Char) :=
  match expectChar lbrace (skipWs cs) with
  | none => none
  | some cs1 =>
      match parseFieldNamed "lastArchived" cs1 with
      | none => none
      | some (la, cs2) =>
          match expectChar ',' (skipWs cs2) with
          | none => none
          | some cs3 =>
              match parseFieldNamed "archivedPath" cs3 with
              | none => none
              | some (ap, cs4) =>
                  match skipWs cs4 with
                  | [] => none
                  | c :: cs5 =>
                      if c = ',' then
                        match parseFieldNamed "description" cs5 with
                        | none => none
                        | some (d, cs6) =>
                            match expectChar rbrace (skipWs cs6) with
                            | none => none
                            | some cs7 =>
                                some ({ lastArchived := la
                                        archivedPath := ap
                                        description := some d }, cs7)
                      else if c = rbrace then
                        some ({ lastArchived := la
                                archivedPath := ap
                                description := none }, cs5)
                      else none

/-- Read one key/record entry. -/
def parseEntry (cs : List Char) : Option ((String × CaptureRecord) × List Char) :=
  match parseQuotedString (skipWs cs) with
  | none => none
  | some (k, cs1) =>
      match expectChar ':' (skipWs cs1) with
      | none => none
      | some cs2 =>
          match parseRecord cs2 with
          | none => none
          | some (r, cs3) => some ((k, r), cs3)

/-- Read a non-empty comma-separated entry sequence terminated by the
closing brace of the object; the fuel bounds the number of entries. -/
def parseEntries : Nat → List Char → Option (Metadata × List Char)
  | 0, _ => none
  | fuel + 1, cs =>
      match parseEntry cs with
      | none => none
      | some (e, cs1) =>
          match skipWs cs1 with
          | [] => none
          | c :: cs2 =>
              if c = ',' then
                match parseEntries fuel cs2 with
                | none => none
                | some (m, cs3) => some (e :: m, cs3)
              else if c = rbrace then some ([e], cs2)
              else none

/-- Read a whole metadata document: the top-level object of records,
followed only by whitespace.  Returns none for any text JSON.parse would
reject (and, being schema-strict, also for well-formed JSON that does not
have the store shape the consuming code relies on). -/
def parseMetadata (s : String) : Option Metadata :=
  match expectChar lbrace (skipWs s.data) with
  | none => none
  | some cs =>
      match skipWs cs with
      | [] => none
      | c :: cs1 =>
          if c = rbrace then
            if (skipWs cs1).isEmpty then some [] else none
          else
            match parseEntries (s.data.length + 1) cs with
            | none => none
            | some (m, cs2) =>
                if (skipWs cs2).isEmpty then some m else none

/-- The metadata file at run start, as loadArchiveMetadata observes it. -/
inductive MetadataFile where
  | missing
  | contents (text : String)

/-- loadArchiveMetadata (src/main.js lines 12-21): a missing file yields the
empty store; a present file is parsed, a parse failure being caught, logged
as a warning and recovered as the empty store.  The Bool records whether the
warning was logged.  The function is total: no input is fatal. -/
def loadArchiveMetadata (file : MetadataFile) : Metadata × Bool :=
  match file with
  | MetadataFile.missing => ([], false)
  | MetadataFile.contents text =>
      match parseMetadata text with
      | some m => (m, false)
      | none => ([], true)

theorem hexVal_hexDigitChar : ∀ n, n < 16 → hexVal (hexDigitChar n) = some n := by
  decide

theorem escapeChar_len_pos (c : Char) : 1 ≤ (escapeChar c).length := by
  unfold escapeChar
  repeat' split
  all_goals simp

theorem length_le_escList (l : List Char) : l.length ≤ (escList l).length := by
  induction l with
  | nil => simp [escList]
  | cons c t ih =>
      have h1 := escapeChar_len_pos c
      have h2 : escList (c :: t) = escapeChar c ++ escList t := by
        simp [escList]
      rw [h2]
      simp only [List.length_append, List.length_cons]
      have : t.length ≤ (escList t).length := ih
      omega

theorem psl_close (f : Nat) (Y : List Char) :
    parseStrLoop (f + 1) (qc :: Y) = some ([], Y) := rfl

theorem psl_escQc (f : Nat) (Y : List Char) :
    parseStrLoop (f + 1) (bs :: qc :: Y) = consFst qc (parseStrLoop f Y) := rfl

theorem psl_escBs (f : Nat) (Y : List Char) :
    parseStrLoop (f + 1) (bs :: bs :: Y) = consFst bs (parseStrLoop f Y) := rfl

theorem psl_escB (f : Nat) (Y : List Char) :
    parseStrLoop (f + 1) (bs :: 'b' :: Y) =
      consFst (Char.ofNat 8) (parseStrLoop f Y) := rfl

theorem psl_escF (f : Nat) (Y : List Char) :
    parseStrLoop (f + 1) (bs :: 'f' :: Y) =
      consFst (Char.ofNat 12) (parseStrLoop f Y) := rfl

theorem psl_escN (f : Nat) (Y : List Char) :
    parseStrLoop (f + 1) (bs :: 'n' :: Y) = consFst nl (parseStrLoop f Y) := rfl

theorem psl_escR (f : Nat) (Y : List Char) :
    parseStrLoop (f + 1) (bs :: 'r' :: Y) =
      consFst (Char.ofNat 13) (parseStrLoop f Y) := rfl

theorem psl_escT (f : Nat) (Y : List Char) :
    parseStrLoop (f + 1) (bs :: 't' :: Y) =
      consFst (Char.ofNat 9) (parseStrLoop f Y) := rfl

theorem psl_plain (f : Nat) (c : Char) (Y : List Char)
    (h1 : ¬c = qc) (h2 : ¬c = bs) (h3 : ¬c.toNat < 32) :
    parseStrLoop (f + 1) (c :: Y) = consFst c (parseStrLoop f Y) := by
  simp only [parseStrLoop]
  rw [if_neg h1, if_neg h2, if_neg h3]

theorem psl_escHex (f : Nat) (d1 d2 : Char) (v1 v2 : Nat) (Y : List Char)
    (h1 : hexVal d1 = some v1) (h2 : hexVal d2 = some v2) :
    parseStrLoop (f + 1) (bs :: 'u' :: '0' :: '0' :: d1 :: d2 :: Y) =
      consFst (Char.ofNat (v1 * 16 + v2)) (parseStrLoop f Y) := by
  have h0 : hexVal '0' = some 0 := rfl
  simp only [parseStrLoop]
  rw [h0, h1, h2]
  have : ((0 * 16 + 0) * 16 + v1) * 16 + v2 = v1 * 16 + v2 := by ring
  simp [this, bs, qc]

theorem parseStrLoop_escape (l rest : List Char) :
    ∀ fuel, l.length + 1 ≤ fuel →
      parseStrLoop fuel (escList l ++ (qc :: rest)) = some (l, rest) := by
  induction l with
  | nil =>
      intro fuel hf
      obtain ⟨f, rfl⟩ : ∃ f, fuel = f + 1 := ⟨fuel - 1, by omega⟩
      show parseStrLoop (f + 1) (qc :: rest) = some ([], rest)
      exact psl_close f rest
  | cons c t ih =>
      intro fuel hf
      obtain ⟨f, rfl⟩ : ∃ f, fuel = f + 1 := ⟨fuel - 1, by omega⟩
      have hf' : t.length + 1 ≤ f := by
        simp only [List.length_cons] at hf; omega
      have iht := ih f hf'
      have hesc : escList (c :: t) = escapeChar c ++ escList t := by
        simp [escList]
      rw [hesc, List.append_assoc]
      by_cases h1 : c = qc
      · subst h1
        rw [show escapeChar qc = [bs, qc] from by simp [escapeChar]]
        simp only [List.cons_append, List.nil_append]
        rw [psl_escQc, iht]
        rfl
      · by_cases h2 : c = bs
        · subst h2
          rw [show escapeChar bs = [bs, bs] from by simp [escapeChar, bs, qc]]
          simp only [List.cons_append, List.nil_append]
          rw [psl_escBs, iht]
          rfl
        · by_cases h3 : c = Char.ofNat 8
          · subst h3
            rw [show escapeChar (Char.ofNat 8) = [bs, 'b'] from by
              simp [escapeChar, bs, qc]]
            simp only [List.cons_append, List.nil_append]
            rw [psl_escB, iht]
            rfl
          · by_cases h4 : c = Char.ofNat 12
            · subst h4
              rw [show escapeChar (Char.ofNat 12) = [bs, 'f'] from by
                simp [escapeChar, bs, qc]]
              simp only [List.cons_append, List.nil_append]
              rw [psl_escF, iht]
              rfl
            · by_cases h5 : c = nl
              · subst h5
                rw [show escapeChar nl = [bs, 'n'] from by
                  simp [escapeChar, bs, qc, nl]]
                simp only [List.cons_append, List.nil_append]
                rw [psl_escN, iht]
                rfl
              · by_cases h6 : c = Char.ofNat 13
                · subst h6
                  rw [show escapeChar (Char.ofNat 13) = [bs, 'r'] from by
                    simp [escapeChar, bs, qc, nl]]
                  simp only [List.cons_append, List.nil_append]
                  rw [psl_escR, iht]
                  rfl
                · by_cases h7 : c = Char.ofNat 9
                  · subst h7
                    rw [show escapeChar (Char.ofNat 9) = [bs, 't'] from by
                      simp [escapeChar, bs, qc, nl]]
                    simp only [List.cons_append, List.nil_append]
                    rw [psl_escT, iht]
                    rfl
                  · by_cases h8 : c.toNat < 32
                    · have hesc2 : escapeChar c =
                          [bs, 'u', '0', '0', hexDigitChar (c.toNat / 16),
                           hexDigitChar (c.toNat % 16)] := by
                        unfold escapeChar
                        rw [if_neg h1, if_neg h2, if_neg h3, if_neg h4,
                          if_neg h5, if_neg h6, if_neg h7, if_pos h8]
                      rw [hesc2]
                      simp only [List.cons_append, List.nil_append]
                      rw [psl_escHex f (hexDigitChar (c.toNat / 16))
                        (hexDigitChar (c.toNat % 16)) (c.toNat / 16)
                        (c.toNat % 16) _
                        (hexVal_hexDigitChar _ (by omega))
                        (hexVal_hexDigitChar _ (by omega))]
                      have harith : c.toNat / 16 * 16 + c.toNat % 16 = c.toNat := by
                        omega
                      rw [harith, Char.ofNat_toNat, iht]
                      rfl
                    · have hesc2 : escapeChar c = [c] := by
                        unfold escapeChar
                        rw [if_neg h1, if_neg h2, if_neg h3, if_neg h4,
                          if_neg h5, if_neg h6, if_neg h7, if_neg h8]
                      rw [hesc2]
                      simp only [List.cons_append, List.nil_append]
                      rw [psl_plain f c _ h1 h2 h8, iht]
                      rfl

theorem parseQuotedString_cons (X : List Char) :
    parseQuotedString (qc :: X) =
      match parseStrBody X with
      | none => none
      | some (body, r) => some (String.mk body, r) := rfl

theorem parseQuotedString_quote (s : String) (rest : List Char) :
    parseQuotedString (quoteStr s ++ rest) = some (s, rest) := by
  unfold quoteStr
  simp only [List.cons_append]
  rw [parseQuotedString_cons]
  have hshape : escList s.data ++ [qc] ++ rest = escList s.data ++ (qc :: rest) := by
    simp
  rw [hshape]
  unfold parseStrBody
  have hlen : s.data.length + 1 ≤ (escList s.data ++ (qc :: rest)).length := by
    simp only [List.length_append, List.length_cons]
    have := length_le_escList s.data
    omega
  rw [parseStrLoop_escape s.data rest _ hlen]

theorem skipWs_append_ws (wl rest : List Char)
    (h : ∀ c ∈ wl, isWsChar c = true) : skipWs (wl ++ rest) = skipWs rest := by
  induction wl with
  | nil => rfl
  | cons c cs ih =>
      simp only [List.cons_append, skipWs, List.dropWhile_cons,
        h c (List.mem_cons_self c cs), if_true]
      exact ih (fun x hx => h x (List.mem_cons_of_mem c hx))

theorem skipWs_cons_not (c : Char) (rest : List Char) (h : isWsChar c = false) :
    skipWs (c :: rest) = c :: rest := by
  simp [skipWs, List.dropWhile_cons, h]

theorem isWsChar_qc : isWsChar qc = false := rfl

theorem isWsChar_colon : isWsChar ':' = false := rfl

theorem isWsChar_comma : isWsChar ',' = false := rfl

theorem isWsChar_lbrace : isWsChar lbrace = false := rfl

theorem isWsChar_rbrace : isWsChar rbrace = false := rfl

theorem ws_ind4 : ∀ c ∈ ind4, isWsChar c = true := by decide

theorem ws_ind2 : ∀ c ∈ ind2, isWsChar c = true := by decide

theorem ws_nl : ∀ c ∈ [nl], isWsChar c = true := by decide

theorem parseFieldNamed_ws (wl : List Char)
    (hw : ∀ c ∈ wl, isWsChar c = true) (name v : String) (rest : List Char) :
    parseFieldNamed name (wl ++ (fieldChars name v ++ rest)) = some (v, rest) := by
  unfold parseFieldNamed
  rw [skipWs_append_ws wl _ hw]
  have h1 : fieldChars name v ++ rest =
      ind4 ++ (quoteStr name ++ (':' :: ' ' :: (quoteStr v ++ rest))) := by
    unfold fieldChars
    simp
  rw [h1, skipWs_append_ws ind4 _ ws_ind4]
  have h2 : skipWs (quoteStr name ++ (':' :: ' ' :: (quoteStr v ++ rest))) =
      quoteStr name ++ (':' :: ' ' :: (quoteStr v ++ rest)) := by
    unfold quoteStr
    simp only [List.cons_append]
    exact skipWs_cons_not qc _ isWsChar_qc
  rw [h2, parseQuotedString_quote]
  simp only [if_pos rfl]
  rw [skipWs_cons_not ':' _ isWsChar_colon]
  show (match expectChar ':' (':' :: ' ' :: (quoteStr v ++ rest)) with
        | none => none
        | some cs2 => parseQuotedString (skipWs cs2)) = some (v, rest)
  rw [show expectChar ':' (':' :: ' ' :: (quoteStr v ++ rest)) =
        some (' ' :: (quoteStr v ++ rest)) from rfl]
  show parseQuotedString (skipWs (' ' :: (quoteStr v ++ rest))) = some (v, rest)
  rw [show skipWs (' ' :: (quoteStr v ++ rest)) = skipWs (quoteStr v ++ rest) from by
    simp [skipWs, List.dropWhile_cons, show isWsChar ' ' = true from rfl]]
  rw [show skipWs (quoteStr v ++ rest) = quoteStr v ++ rest from by
    unfold quoteStr
    simp only [List.cons_append]
    exact skipWs_cons_not qc _ isWsChar_qc]
  exact parseQuotedString_quote v rest

theorem expectChar_self (c : Char) (X : List Char) :
    expectChar c (c :: X) = some X := by
  simp [expectChar]

theorem parseRecord_chars (wl : List Char)
    (hw : ∀ c ∈ wl, isWsChar c = true) (r : CaptureRecord) (rest : List Char) :
    parseRecord (wl ++ (recordChars r ++ rest)) = some (r, rest) := by
  obtain ⟨la, ap, d⟩ := r
  have hcomma : ¬(rbrace = ',') := by decide
  cases d with
  | none =>
      have hshape : recordChars ⟨la, ap, none⟩ ++ rest =
          lbrace :: ([nl] ++ (fieldChars "lastArchived" la ++
            (',' :: ([nl] ++ (fieldChars "archivedPath" ap ++
              ([nl] ++ (ind2 ++ (rbrace :: rest)))))))) := by
        simp [recordChars]
      have hf1 := parseFieldNamed_ws [nl] ws_nl "lastArchived" la
        (',' :: ([nl] ++ (fieldChars "archivedPath" ap ++
          ([nl] ++ (ind2 ++ (rbrace :: rest))))))
      have hf2 := parseFieldNamed_ws [nl] ws_nl "archivedPath" ap
        ([nl] ++ (ind2 ++ (rbrace :: rest)))
      have hs1 := skipWs_cons_not ','
        ([nl] ++ (fieldChars "archivedPath" ap ++
          ([nl] ++ (ind2 ++ (rbrace :: rest))))) isWsChar_comma
      have hs2 : skipWs ([nl] ++ (ind2 ++ (rbrace :: rest))) = rbrace :: rest := by
        rw [skipWs_append_ws [nl] _ ws_nl, skipWs_append_ws ind2 _ ws_ind2,
          skipWs_cons_not rbrace _ isWsChar_rbrace]
      unfold parseRecord
      rw [skipWs_append_ws wl _ hw, hshape,
        skipWs_cons_not lbrace _ isWsChar_lbrace, expectChar_self]
      simp only [hf1, hs1, expectChar_self, hf2, hs2]
      simp [hcomma]
  | some dv =>
      have hshape : recordChars ⟨la, ap, some dv⟩ ++ rest =
          lbrace :: ([nl] ++ (fieldChars "lastArchived" la ++
            (',' :: ([nl] ++ (fieldChars "archivedPath" ap ++
              (',' :: ([nl] ++ (fieldChars "description" dv ++
                ([nl] ++ (ind2 ++ (rbrace :: rest))))))))))) := by
        simp [recordChars]
      have hf1 := parseFieldNamed_ws [nl] ws_nl "lastArchived" la
        (',' :: ([nl] ++ (fieldChars "archivedPath" ap ++
          (',' :: ([nl] ++ (fieldChars "description" dv ++
            ([nl] ++ (ind2 ++ (rbrace :: rest)))))))))
      have hf2 := parseFieldNamed_ws [nl] ws_nl "archivedPath" ap
        (',' :: ([nl] ++ (fieldChars "description" dv ++
          ([nl] ++ (ind2 ++ (rbrace :: rest))))))
      have hf3 := parseFieldNamed_ws [nl] ws_nl "description" dv
        ([nl] ++ (ind2 ++ (rbrace :: rest)))
      have hs1 := skipWs_cons_not ','
        ([nl] ++ (fieldChars "archivedPath" ap ++
          (',' :: ([nl] ++ (fieldChars "description" dv ++
            ([nl] ++ (ind2 ++ (rbrace :: rest)))))))) isWsChar_comma
      have hs2 := skipWs_cons_not ','
        ([nl] ++ (fieldChars "description" dv ++
          ([nl] ++ (ind2 ++ (rbrace :: rest))))) isWsChar_comma
      have hs3 : skipWs ([nl] ++ (ind2 ++ (rbrace :: rest))) = rbrace :: rest := by
        rw [skipWs_append_ws [nl] _ ws_nl, skipWs_append_ws ind2 _ ws_ind2,
          skipWs_cons_not rbrace _ isWsChar_rbrace]
      unfold parseRecord
      rw [skipWs_append_ws wl _ hw, hshape,
        skipWs_cons_not lbrace _ isWsChar_lbrace, expectChar_self]
      simp only [hf1, hs1, expectChar_self, hf2, hs2, hf3, hs3]
      simp

theorem parseEntry_chars (wl : List Char)
    (hw : ∀ c ∈ wl, isWsChar c = true) (e : String × CaptureRecord)
    (rest : List Char) :
    parseEntry (wl ++ (entryChars e ++ rest)) = some (e, rest) := by
  obtain ⟨k, r⟩ := e
  have hshape : entryChars (k, r) ++ rest =
      ind2 ++ (quoteStr k ++ (':' :: (' ' :: (recordChars r ++ rest)))) := by
    simp [entryChars]
  have hq : skipWs (quoteStr k ++ (':' :: (' ' :: (recordChars r ++ rest)))) =
      quoteStr k ++ (':' :: (' ' :: (recordChars r ++ rest))) := by
    unfold quoteStr
    simp only [List.cons_append]
    exact skipWs_cons_not qc _ isWsChar_qc
  have hr : parseRecord ([' '] ++ (recordChars r ++ rest)) = some (r, rest) :=
    parseRecord_chars [' '] (by decide) r rest
  unfold parseEntry
  rw [skipWs_append_ws wl _ hw, hshape, skipWs_append_ws ind2 _ ws_ind2, hq,
    parseQuotedString_quote]
  simp only [skipWs_cons_not ':' _ isWsChar_colon, expectChar_self]
  rw [show parseRecord (' ' :: (recordChars r ++ rest)) = some (r, rest) from hr]

theorem parseEntries_chars (e : String × CaptureRecord) (tl : Metadata)
    (wl : List Char) (hw : ∀ c ∈ wl, isWsChar c = true) (rest : List Char) :
    ∀ fuel, (e :: tl).length ≤ fuel →
      parseEntries fuel (wl ++ (entriesChars (e :: tl) ++ (nl :: rbrace :: rest))) =
        some (e :: tl, rest) := by
  induction tl generalizing e wl with
  | nil =>
      intro fuel hf
      simp only [List.length_cons] at hf
      obtain ⟨f, rfl⟩ : ∃ f, fuel = f + 1 := ⟨fuel - 1, by omega⟩
      have hone : entriesChars [e] = entryChars e := rfl
      unfold parseEntries
      rw [hone, parseEntry_chars wl hw e (nl :: rbrace :: rest)]
      have hs : skipWs (nl :: rbrace :: rest) = rbrace :: rest := by
        have hsplit : nl :: rbrace :: rest = [nl] ++ (rbrace :: rest) := rfl
        rw [hsplit, skipWs_append_ws [nl] _ ws_nl,
          skipWs_cons_not rbrace _ isWsChar_rbrace]
      simp only [hs]
      simp [show ¬(rbrace = ',') from by decide]
  | cons e2 tl2 ih =>
      intro fuel hf
      simp only [List.length_cons] at hf
      obtain ⟨f, rfl⟩ : ∃ f, fuel = f + 1 := ⟨fuel - 1, by omega⟩
      have hf' : (e2 :: tl2).length ≤ f := by
        simp only [List.length_cons] at hf ⊢; omega
      have hcons : entriesChars (e :: e2 :: tl2) =
          entryChars e ++ ',' :: nl :: entriesChars (e2 :: tl2) := rfl
      have hshape : entriesChars (e :: e2 :: tl2) ++ (nl :: rbrace :: rest) =
          entryChars e ++ (',' :: ([nl] ++
            (entriesChars (e2 :: tl2) ++ (nl :: rbrace :: rest)))) := by
        rw [hcons]; simp
      unfold parseEntries
      rw [hshape, parseEntry_chars wl hw e _]
      have hs := skipWs_cons_not ','
        ([nl] ++ (entriesChars (e2 :: tl2) ++ (nl :: rbrace :: rest)))
        isWsChar_comma
      simp only [hs]
      have hrec := ih e2 [nl] ws_nl f hf'
      have hrec2 : parseEntries f
          (nl :: (entriesChars (e2 :: tl2) ++ nl :: rbrace :: rest)) =
          some (e2 :: tl2, rest) := hrec
      simp [hrec2]

theorem skipWs_cons_ws (c : Char) (rest : List Char) (h : isWsChar c = true) :
    skipWs (c :: rest) = skipWs rest := by
  simp [skipWs, List.dropWhile_cons, h]

theorem entryChars_len_pos (e : String × CaptureRecord) :
    1 ≤ (entryChars e).length := by
  unfold entryChars
  simp only [List.length_append]
  have h2 : ind2.length = 2 := rfl
  omega

theorem length_le_entriesChars (m : Metadata) (hm : m ≠ []) :
    m.length ≤ (entriesChars m).length := by
  induction m with
  | nil => simp at hm
  | cons e tl ih =>
      cases tl with
      | nil =>
          have := entryChars_len_pos e
          simpa [entriesChars] using this
      | cons e2 tl2 =>
          have h1 := entryChars_len_pos e
          have h2 := ih (by simp)
          rw [show entriesChars (e :: e2 :: tl2) =
              entryChars e ++ ',' :: nl :: entriesChars (e2 :: tl2) from rfl]
          simp only [List.length_append, List.length_cons] at h2 ⊢
          omega

theorem entriesChars_cons_shape (e : String × CaptureRecord) (tl : Metadata) :
    ∃ X, entriesChars (e :: tl) = ' ' :: (' ' :: (qc :: X)) := by
  cases tl with
  | nil =>
      refine ⟨(escList e.1.data ++ [qc]) ++ (':' :: ' ' :: recordChars e.2), ?_⟩
      show entryChars e = _
      simp [entryChars, ind2, quoteStr]
  | cons e2 tl2 =>
      refine ⟨(escList e.1.data ++ [qc]) ++ (':' :: ' ' :: recordChars e.2) ++
        (',' :: nl :: entriesChars (e2 :: tl2)), ?_⟩
      show entryChars e ++ ',' :: nl :: entriesChars (e2 :: tl2) = _
      simp [entryChars, ind2, quoteStr]

/-- C7: serializing a metadata store with saveArchiveMetadata and reading it
back with the loader's parse yields exactly the same mapping: the same keys
in the same order and equal lastArchived, archivedPath and description
values for every key (src/main.js lines 12-21 and 26-28).  The Nodup
hypothesis states that the serialized object is a genuine mapping, which JS
objects guarantee. -/
theorem metadata_round_trip (m : Metadata)
    (hnd : (m.map Prod.fst).Nodup) :
    parseMetadata (saveArchiveMetadata m) = some m := by
  cases m with
  | nil => rfl
  | cons e tl =>
      have hdata : (saveArchiveMetadata (e :: tl)).data =
          lbrace :: ([nl] ++ (entriesChars (e :: tl) ++ (nl :: rbrace :: []))) := by
        simp [saveArchiveMetadata, metadataChars]
      unfold parseMetadata
      rw [hdata, skipWs_cons_not lbrace _ isWsChar_lbrace, expectChar_self]
      simp only []
      obtain ⟨X, hX⟩ := entriesChars_cons_shape e tl
      have hsk : skipWs ([nl] ++ (entriesChars (e :: tl) ++ (nl :: rbrace :: []))) =
          qc :: (X ++ (nl :: rbrace :: [])) := by
        rw [skipWs_append_ws [nl] _ ws_nl, hX]
        simp only [List.cons_append]
        rw [skipWs_cons_ws ' ' _ (by decide), skipWs_cons_ws ' ' _ (by decide),
          skipWs_cons_not qc _ isWsChar_qc]
      rw [hsk]
      have hfuel : (e :: tl).length ≤
          (lbrace :: ([nl] ++ (entriesChars (e :: tl) ++ (nl :: rbrace :: [])))).length + 1 := by
        have := length_le_entriesChars (e :: tl) (by simp)
        simp only [List.length_cons, List.length_append, List.singleton_append] at this ⊢
        omega
      have hent := parseEntries_chars e tl [nl] ws_nl []
        ((lbrace :: ([nl] ++ (entriesChars (e :: tl) ++ (nl :: rbrace :: [])))).length + 1)
        hfuel
      generalize hFU : (lbrace :: ([nl] ++ (entriesChars (e :: tl) ++
        (nl :: rbrace :: [])))).length + 1 = FU at hent ⊢
      have hent2 : parseEntries FU
          (nl :: (entriesChars (e :: tl) ++ (nl :: rbrace :: []))) =
          some (e :: tl, []) := hent
      simp [show ¬(qc = rbrace) from by decide, hent2, skipWs]

/-- Witness for C7 at a concrete two-entry store with and without a
description field. -/
theorem metadata_round_trip_witness :
    parseMetadata (saveArchiveMetadata
      [("https://example.org",
        { lastArchived := "2025-06-01",
          archivedPath := "archive/example.org/index.html",
          description := some "home" }),
       ("r/example",
        { lastArchived := "2025-05-31",
          archivedPath := "archive/example_wiki.html",
          description := none })]) =
    some
      [("https://example.org",
        { lastArchived := "2025-06-01",
          archivedPath := "archive/example.org/index.html",
          description := some "home" }),
       ("r/example",
        { lastArchived := "2025-05-31",
          archivedPath := "archive/example_wiki.html",
          description := none })] :=
  metadata_round_trip
    [("https://example.org",
      { lastArchived := "2025-06-01",
        archivedPath := "archive/example.org/index.html",
        description := some "home" }),
     ("r/example",
      { lastArchived := "2025-05-31",
        archivedPath := "archive/example_wiki.html",
        description := none })]
    (by decide)

/-- C6: loading the metadata store never fails the run: a missing file
yields the empty mapping without a warning, a present file whose contents do
not parse yields the empty mapping with a logged warning, and
loadArchiveMetadata is a total function, so no input raises a fatal error
(src/main.js lines 12-21). -/
theorem load_never_fatal :
    loadArchiveMetadata MetadataFile.missing = ([], false)
    ∧ ∀ text : String, parseMetadata text = none →
        loadArchiveMetadata (MetadataFile.contents text) = ([], true) := by
  refine ⟨rfl, ?_⟩
  intro text h
  simp [loadArchiveMetadata, h]

/-- Witness for C6 at a concrete malformed file content. -/
theorem load_never_fatal_witness :
    loadArchiveMetadata MetadataFile.missing = ([], false)
    ∧ loadArchiveMetadata (MetadataFile.contents "not json") = ([], true) :=
  ⟨load_never_fatal.1, load_never_fatal.2 "not json" (by decide)⟩

end WebArchiver
